/-
Verification of the nixcp store-binding layer (src/bindings/nix.cpp,
src/bindings/nix.hpp): a shallow embedding of the C++ glue code between a
Rust caller and the Nix store engine, together with proofs of the
specification's claims about it.

Conventions of the embedding:
- C++ exceptions become `Except NixError` / `Option` results.
- The raw byte slices crossing the Rust/C++ boundary carry ASCII store-path
  base names, so they are modelled as `String`.
- The external Nix store engine (nix::StorePath, nix::Store::queryPathInfo,
  nix::Store::computeFSClosure) is not part of this repository's sources;
  those pieces are modelled from the specification and are marked
  `Modelled from the spec:` in their doc comments.
-/
import Mathlib

namespace Nixcp

/-! ## Path identifier codec -/

/-- Modelled from the spec: the character set of the content-hash segment of a
store path base name (the Nix base-32 alphabet). -/
def nixBase32Chars : List Char := "0123456789abcdfghijklmnpqrsvwxyz".toList

/-- Modelled from the spec: a character is valid in the hash segment. -/
def isHashChar (c : Char) : Bool := nixBase32Chars.contains c

/-- Modelled from the spec: a character is valid in the name segment of a
store path base name. -/
def isNameChar (c : Char) : Bool :=
  c.isAlphanum || c == '+' || c == '-' || c == '.' || c == '_' || c == '?' || c == '='

/-- Modelled from the spec: syntactic validity of a store path base name
(`nix::StorePath`'s constructor check is not under src/). Per spec §4.2 a
well-formed base name is a fixed-length content-hash segment, a dash, and a
non-empty name of valid characters; wrong length, invalid characters or a
missing/incorrect hash segment are rejected. -/
def validBaseNameChars (cs : List Char) : Bool :=
  (cs.take 32).length == 32 && (cs.take 32).all isHashChar &&
    match cs.drop 32 with
    | '-' :: name => !name.isEmpty && name.all isNameChar
    | _ => false

/-- Validity of a store path base name, on strings. -/
def validStorePathStr (s : String) : Bool := validBaseNameChars s.toList

/-- A store path: a syntactically valid base name (models `nix::StorePath`,
which stores exactly the base name string). -/
abbrev StorePath := {s : String // validStorePathStr s = true}

/-- Embeds `store_path_from_rust` (src/bindings/nix.cpp): parse the incoming
byte slice as a store path; the C++ constructor throw on malformed input is
modelled as `none`. -/
def store_path_from_rust (base_name : String) : Option StorePath :=
  if h : validStorePathStr base_name = true then some ⟨base_name, h⟩ else none

/-- Embeds `nix::StorePath::to_string`: render the path back to its base
name (the stored string itself). -/
def StorePath.to_string (p : StorePath) : String := p.val

/-! ## Store model and path metadata -/

/-- Modelled from the spec: one store record, the engine's authoritative
path-info for one path (signatures, direct references), plus the
derivation-output and deriver side-edges that the closure policy flags can
pull in (spec §4.4). -/
structure ValidPathInfo where
  path : StorePath
  sigs : List String
  references : List StorePath
  outputs : List StorePath
  deriver : Option StorePath
deriving DecidableEq

/-- Modelled from the spec: the store's reference-graph contents, an
association of paths to their records. -/
abbrev Store := List ValidPathInfo

/-- Modelled from the spec: the engine's record lookup for one path. -/
def lookupStore (st : Store) (p : StorePath) : Option ValidPathInfo :=
  st.find? (fun i => i.path = p)

/-- The error taxonomy of spec §7. -/
inductive NixError where
  | storeUnavailable
  | invalidPathFormat
  | pathNotFound
  | storeQueryError
  | archiveStreamError
deriving DecidableEq

/-- Embeds `CPathInfo` (src/bindings/nix.cpp): an opaque wrapper around one
queried `nix::ValidPathInfo` record. -/
structure CPathInfo where
  pi : ValidPathInfo
deriving DecidableEq

/-- Embeds `CPathInfo::sigs`: copy each signature string out of the record
into a fresh owned sequence, in record order. -/
def CPathInfo.sigs (self : CPathInfo) : List String :=
  self.pi.sigs.map (fun elem => elem)

/-- Embeds `CPathInfo::references`: render each directly referenced path via
`to_string` into a fresh owned sequence, in record order (the loop pushes in
iteration order; nothing re-sorts). -/
def CPathInfo.references (self : CPathInfo) : List String :=
  self.pi.references.map (fun elem => elem.to_string)

/-- Embeds `CNixStore::query_path_info` (src/bindings/nix.cpp): parse the
base name with `store_path_from_rust`, then look the path up in the store;
the engine's lookup failure on an absent path is `pathNotFound`. -/
def query_path_info (st : Store) (base_name : String) : Except NixError CPathInfo :=
  match store_path_from_rust base_name with
  | none => .error .invalidPathFormat
  | some store_path =>
    match lookupStore st store_path with
    | none => .error .pathNotFound
    | some r => .ok ⟨r⟩

/-! ## Closure computation -/

/-- Modelled from the spec: the direct references recorded for a path (empty
when the path has no record). -/
def refsOf (st : Store) (p : StorePath) : List StorePath :=
  match lookupStore st p with
  | some r => r.references
  | none => []

/-- Modelled from the spec: the paths whose records directly reference `p`
(the reverse edges used when `flip_direction` is set). -/
def referrersOf (st : Store) (p : StorePath) : List StorePath :=
  (st.filter (fun i => p ∈ i.references)).map (fun i => i.path)

/-- Modelled from the spec: the declared build outputs of a derivation-like
node (pulled in by `include_outputs`). -/
def outputsOf (st : Store) (p : StorePath) : List StorePath :=
  match lookupStore st p with
  | some r => r.outputs
  | none => []

/-- Modelled from the spec: the deriver of an output-like node (pulled in by
`include_derivers`). -/
def deriversOf (st : Store) (p : StorePath) : List StorePath :=
  match lookupStore st p with
  | some r => r.deriver.toList
  | none => []

/-- Modelled from the spec (§4.4): the direct edges out of one node under
the selected direction, plus the output/deriver side-edges per policy. -/
def edgeList (st : Store) (flip io idv : Bool) (p : StorePath) : List StorePath :=
  (if flip then referrersOf st p else refsOf st p)
    ++ (if io then outputsOf st p else [])
    ++ (if idv then deriversOf st p else [])

/-- The edge relation induced by `edgeList`. -/
def edgeRel (st : Store) (flip io idv : Bool) (p q : StorePath) : Prop :=
  q ∈ edgeList st flip io idv p

/-- The plain reference edge: `q` is directly referenced by `p`. -/
def refEdge (st : Store) (p q : StorePath) : Prop :=
  q ∈ refsOf st p

/-- Every path that can ever appear during a traversal from `root`: the root
itself, every recorded path, and every reference/output/deriver target. -/
def pathUniverse (st : Store) (root : StorePath) : List StorePath :=
  root :: st.flatMap (fun i => i.path :: (i.references ++ i.outputs ++ i.deriver.toList))

/-- One round of frontier expansion: keep the visited set and add every
direct successor of a visited node. -/
def stepR (st : Store) (flip io idv : Bool) (s : List StorePath) : List StorePath :=
  (s ++ s.flatMap (edgeList st flip io idv)).dedup

/-- The visited set after `n` rounds of expansion, seeded with `root`. -/
def reachN (st : Store) (flip io idv : Bool) (root : StorePath) : Nat → List StorePath
  | 0 => [root]
  | n + 1 => stepR st flip io idv (reachN st flip io idv root n)

/-- Enough rounds to saturate: the number of distinct paths that can appear. -/
def closureFuel (st : Store) (root : StorePath) : Nat :=
  (pathUniverse st root).dedup.length

/-- Modelled from the spec (§4.4): `nix::Store::computeFSClosure`, the
policy-parameterized reachability computation — expand the visited set,
seeded with `root`, until no new nodes are discovered. -/
def computeFSClosure (st : Store) (flip io idv : Bool) (root : StorePath) : List StorePath :=
  reachN st flip io idv root (closureFuel st root)

/-! ## The std::set collecting the closure -/

/-- Lexicographic comparison of character lists (an executable form of the
`std::string` comparison that orders `nix::StorePath` values). -/
def charListLt : List Char → List Char → Bool
  | _, [] => false
  | [], _ :: _ => true
  | a :: as, b :: bs => if a < b then true else if b < a then false else charListLt as bs

/-- Lexicographic comparison of strings, on their character lists. -/
def strLt (a b : String) : Bool := charListLt a.toList b.toList

/-- Ordered insertion into the model of `std::set<nix::StorePath>`: paths are
ordered by their base-name strings (nix's comparison), and inserting an
element already present keeps the set unchanged. -/
def setInsert (x : StorePath) : List StorePath → List StorePath
  | [] => [x]
  | y :: ys =>
    if strLt x.val y.val then x :: y :: ys
    else if strLt y.val x.val then y :: setInsert x ys
    else y :: ys

/-- The contents of a `std::set<nix::StorePath>` after inserting every
element of `l`: strictly sorted, duplicate-free. -/
def setOfList (l : List StorePath) : List StorePath :=
  l.foldr setInsert []

/-- Embeds `CNixStore::compute_fs_closure` (src/bindings/nix.cpp): parse the
base name, run the engine's closure into a `std::set`, then render each
member with `to_string` in the set's iteration order. A missing root fails
with `pathNotFound` (spec §4.4). -/
def compute_fs_closure (st : Store) (base_name : String)
    (flip_direction include_outputs include_derivers : Bool) :
    Except NixError (List String) :=
  match store_path_from_rust base_name with
  | none => .error .invalidPathFormat
  | some root =>
    match lookupStore st root with
    | none => .error .pathNotFound
    | some _ =>
      .ok ((setOfList
        (computeFSClosure st flip_direction include_outputs include_derivers root)).map
          (fun elem => elem.to_string))

/-- The set of members of a successful result (for stating set-equality of
two calls). -/
def okSet (r : Except NixError (List String)) : Finset String :=
  match r with
  | .ok l => l.toFinset
  | .error _ => ∅

/-! ## One-time initialization -/

/-- The process-global initialization state of src/bindings/nix.cpp:
`g_init_nix_done` plus, for specification purposes, a count of how many
times `nix::initNix` has run. -/
structure InitState where
  done : Bool
  initCount : Nat
deriving DecidableEq

/-- The state before any `CNixStore` is constructed. -/
def initState : InitState := ⟨false, 0⟩

/-- Embeds the `CNixStore::CNixStore` constructor body under
`g_init_nix_mutex`: if the flag is unset, run `nix::initNix` and set it;
otherwise skip. The mutex serializes constructions, so a run of the process
is a sequence of these steps. -/
def construct (s : InitState) : InitState :=
  if s.done then s else ⟨true, s.initCount + 1⟩

/-- The state after `n` serialized `CNixStore` constructions. -/
def constructN : Nat → InitState → InitState
  | 0, s => s
  | n + 1, s => construct (constructN n s)

/-! ## Archive streaming -/

/-- The messages a streaming consumer can observe: a data chunk, the
distinct end-of-stream signal, or a terminal error. -/
inductive SinkMsg where
  | data (bytes : List Nat)
  | eofMsg
  | errMsg (e : String)
deriving DecidableEq

/-- Embeds `RustSink::operator()` (src/bindings/nix.cpp): one produced chunk
is sent as one data message. -/
def rustSinkWrite (bytes : List Nat) : SinkMsg := .data bytes

/-- Embeds `RustSink::eof` (src/bindings/nix.cpp): the explicit end-of-stream
call becomes the distinct terminal message. -/
def rustSinkEof : SinkMsg := .eofMsg

/-- Whether a message is terminal (end-of-stream or error) rather than a
chunk delivery. -/
def SinkMsg.isTerminal : SinkMsg → Bool
  | .data _ => false
  | .eofMsg => true
  | .errMsg _ => true

/-- Modelled from the spec: the message sequence a consumer observes for one
archive transfer (`CNixStore::nar_from_path` and the Rust channel side are
not under src/). The serializer emits `chunks` through `RustSink`; on clean
completion the explicit end-of-stream call follows, and on a mid-stream
failure the captured error is forwarded as the single terminal message
instead (spec §4.5). -/
def streamMessages (chunks : List (List Nat)) (failure : Option String) : List SinkMsg :=
  match failure with
  | none => chunks.map rustSinkWrite ++ [rustSinkEof]
  | some e => chunks.map rustSinkWrite ++ [.errMsg e]

/-! ## Concrete sample data -/

/-- A concrete valid store path used as a query root in examples. -/
def fooPath : StorePath :=
  ⟨"00000000000000000000000000000000-foo", by decide⟩

/-- A concrete valid store path referenced by `fooPath` in `sampleStore`. -/
def barPath : StorePath :=
  ⟨"11111111111111111111111111111111-bar", by decide⟩

/-- A concrete valid store path holding a derivation with one output. -/
def drvPath : StorePath :=
  ⟨"22222222222222222222222222222222-foo.drv", by decide⟩

/-- The build output declared by `drvPath`, referenced by nothing. -/
def outPath : StorePath :=
  ⟨"33333333333333333333333333333333-foo", by decide⟩

/-- A concrete valid store path that is absent from the sample stores. -/
def missingPath : StorePath :=
  ⟨"44444444444444444444444444444444-missing", by decide⟩

/-- The record for `fooPath`: signed, referencing `barPath`. -/
def fooInfo : ValidPathInfo := ⟨fooPath, ["cache.example.org-1:deadbeef"], [barPath], [], none⟩

/-- The record for `barPath`: unsigned, no references. -/
def barInfo : ValidPathInfo := ⟨barPath, [], [], [], none⟩

/-- A store holding `fooPath → barPath` and `barPath`. -/
def sampleStore : Store := [fooInfo, barInfo]

/-- The record for `drvPath`: no references, one declared output `outPath`. -/
def drvInfo : ValidPathInfo := ⟨drvPath, [], [], [outPath], none⟩

/-- A store holding only the derivation `drvPath`, whose output is not in any
reference chain. -/
def drvStore : Store := [drvInfo]

/-! ## Codec lemmas -/

theorem store_path_from_rust_to_string (p : StorePath) :
    store_path_from_rust (StorePath.to_string p) = some p := by
  obtain ⟨s, hs⟩ := p
  simp [store_path_from_rust, StorePath.to_string, hs]

/-! ## String-order lemmas -/

theorem charListLt_iff (as : List Char) : ∀ bs, charListLt as bs = true ↔ as < bs := by
  induction as with
  | nil =>
    intro bs
    cases bs with
    | nil =>
      simp only [charListLt, Bool.false_eq_true, false_iff]
      intro h
      cases h
    | cons b bs =>
      simp only [charListLt, true_iff]
      exact List.Lex.nil
  | cons a as ih =>
    intro bs
    cases bs with
    | nil =>
      simp only [charListLt, Bool.false_eq_true, false_iff]
      intro h
      cases h
    | cons b bs =>
      simp only [charListLt]
      by_cases hab : a < b
      · rw [if_pos hab]
        simp only [true_iff]
        exact List.Lex.rel hab
      · rw [if_neg hab]
        by_cases hba : b < a
        · rw [if_pos hba]
          simp only [Bool.false_eq_true, false_iff]
          intro h
          cases h with
          | cons h3 => exact absurd hba (lt_irrefl a)
          | rel h' => exact hab h'
        · rw [if_neg hba]
          have heq : a = b := le_antisymm (not_lt.mp hba) (not_lt.mp hab)
          subst heq
          rw [ih bs]
          constructor
          · intro h
            exact List.Lex.cons h
          · intro h
            cases h with
            | cons h3 => exact h3
            | rel h' => exact absurd h' (lt_irrefl a)

theorem strLt_iff (a b : String) : strLt a b = true ↔ a < b := by
  rw [String.lt_iff_toList_lt]
  exact charListLt_iff a.toList b.toList

theorem eq_of_not_strLt {x y : StorePath}
    (h1 : ¬ strLt x.val y.val = true) (h2 : ¬ strLt y.val x.val = true) : x = y := by
  apply Subtype.ext
  rw [strLt_iff] at h1 h2
  exact le_antisymm (not_lt.mp h2) (not_lt.mp h1)

/-! ## std::set model lemmas -/

/-- The strict order on store paths used by the `std::set` model. -/
def pathOrd (a b : StorePath) : Prop := a.val < b.val

theorem mem_setInsert (a x : StorePath) (l : List StorePath) :
    a ∈ setInsert x l ↔ a = x ∨ a ∈ l := by
  induction l with
  | nil => simp [setInsert]
  | cons y ys ih =>
    simp only [setInsert]
    by_cases h1 : strLt x.val y.val = true
    · rw [if_pos h1]
      simp [List.mem_cons]
    · rw [if_neg h1]
      by_cases h2 : strLt y.val x.val = true
      · rw [if_pos h2]
        simp only [List.mem_cons, ih]
        tauto
      · rw [if_neg h2]
        have hxy : x = y := eq_of_not_strLt h1 h2
        subst hxy
        simp only [List.mem_cons]
        tauto

theorem pairwise_setInsert (x : StorePath) (l : List StorePath)
    (h : l.Pairwise pathOrd) : (setInsert x l).Pairwise pathOrd := by
  induction l with
  | nil => simp [setInsert, List.pairwise_cons]
  | cons y ys ih =>
    rcases List.pairwise_cons.mp h with ⟨hy, hys⟩
    simp only [setInsert]
    by_cases h1 : strLt x.val y.val
    · rw [if_pos h1]
      refine List.pairwise_cons.mpr ⟨?_, h⟩
      intro b hb
      rcases List.mem_cons.mp hb with rfl | hb
      · exact (strLt_iff _ _).mp h1
      · exact lt_trans ((strLt_iff _ _).mp h1) (hy b hb)
    · rw [if_neg h1]
      by_cases h2 : strLt y.val x.val
      · rw [if_pos h2]
        refine List.pairwise_cons.mpr ⟨?_, ih hys⟩
        intro b hb
        rcases (mem_setInsert b x ys).mp hb with rfl | hb
        · exact (strLt_iff _ _).mp h2
        · exact hy b hb
      · rw [if_neg h2]
        exact h

theorem mem_setOfList (a : StorePath) (l : List StorePath) :
    a ∈ setOfList l ↔ a ∈ l := by
  induction l with
  | nil => simp [setOfList]
  | cons y ys ih =>
    rw [show setOfList (y :: ys) = setInsert y (setOfList ys) from rfl,
      mem_setInsert, ih, List.mem_cons]

theorem pairwise_setOfList (l : List StorePath) : (setOfList l).Pairwise pathOrd := by
  induction l with
  | nil => simp [setOfList]
  | cons y ys ih => exact pairwise_setInsert y (setOfList ys) ih

/-! ## Reachability lemmas -/

theorem mem_stepR_left (st : Store) (fl io idv : Bool) (s : List StorePath) (q : StorePath)
    (h : q ∈ s) : q ∈ stepR st fl io idv s := by
  simp only [stepR, List.mem_dedup, List.mem_append]
  exact Or.inl h

theorem mem_stepR_edge (st : Store) (fl io idv : Bool) (s : List StorePath) (p q : StorePath)
    (hp : p ∈ s) (hq : q ∈ edgeList st fl io idv p) : q ∈ stepR st fl io idv s := by
  simp only [stepR, List.mem_dedup, List.mem_append, List.mem_flatMap]
  exact Or.inr ⟨p, hp, hq⟩

theorem mem_stepR_elim (st : Store) (fl io idv : Bool) (s : List StorePath) (q : StorePath)
    (h : q ∈ stepR st fl io idv s) : q ∈ s ∨ ∃ p ∈ s, q ∈ edgeList st fl io idv p := by
  simpa only [stepR, List.mem_dedup, List.mem_append, List.mem_flatMap] using h

theorem stepR_mono (st : Store) (fl io idv : Bool) (s t : List StorePath)
    (hsub : ∀ a ∈ s, a ∈ t) : ∀ a ∈ stepR st fl io idv s, a ∈ stepR st fl io idv t := by
  intro a ha
  rcases mem_stepR_elim st fl io idv s a ha with h | ⟨p, hp, he⟩
  · exact mem_stepR_left st fl io idv t a (hsub a h)
  · exact mem_stepR_edge st fl io idv t p a (hsub p hp) he

theorem reachN_mono_succ (st : Store) (fl io idv : Bool) (root : StorePath) (n : Nat) :
    ∀ a ∈ reachN st fl io idv root n, a ∈ reachN st fl io idv root (n + 1) := by
  intro a ha
  exact mem_stepR_left st fl io idv _ a ha

theorem reachN_mono (st : Store) (fl io idv : Bool) (root : StorePath) (m n : Nat)
    (hmn : m ≤ n) : ∀ a ∈ reachN st fl io idv root m, a ∈ reachN st fl io idv root n := by
  refine Nat.le_induction ?_ ?_ n hmn
  · intro a ha
    exact ha
  · intro k _ ihk a ha
    exact reachN_mono_succ st fl io idv root k a (ihk a ha)

theorem root_mem_reachN (st : Store) (fl io idv : Bool) (root : StorePath) (n : Nat) :
    root ∈ reachN st fl io idv root n := by
  refine reachN_mono st fl io idv root 0 n (Nat.zero_le n) root ?_
  simp [reachN]

theorem reachN_sound (st : Store) (fl io idv : Bool) (root : StorePath) (n : Nat) :
    ∀ q ∈ reachN st fl io idv root n, Relation.ReflTransGen (edgeRel st fl io idv) root q := by
  induction n with
  | zero =>
    intro q hq
    simp only [reachN, List.mem_singleton] at hq
    subst hq
    exact Relation.ReflTransGen.refl
  | succ n ih =>
    intro q hq
    rcases mem_stepR_elim st fl io idv _ q hq with h | ⟨p, hp, he⟩
    · exact ih q h
    · exact Relation.ReflTransGen.tail (ih p hp) he

theorem mem_pathUniverse_of_record (st : Store) (root : StorePath) (i : ValidPathInfo)
    (q : StorePath) (hi : i ∈ st)
    (hq : q = i.path ∨ q ∈ i.references ∨ q ∈ i.outputs ∨ q ∈ i.deriver.toList) :
    q ∈ pathUniverse st root := by
  simp only [pathUniverse, List.mem_cons, List.mem_flatMap]
  refine Or.inr ⟨i, hi, ?_⟩
  simp only [List.mem_cons, List.mem_append]
  tauto

theorem mem_store_of_lookup (st : Store) (p : StorePath) (r : ValidPathInfo)
    (h : lookupStore st p = some r) : r ∈ st :=
  List.mem_of_find?_eq_some h

theorem refsOf_subset_universe (st : Store) (root p q : StorePath)
    (h : q ∈ refsOf st p) : q ∈ pathUniverse st root := by
  unfold refsOf at h
  cases hl : lookupStore st p with
  | none => rw [hl] at h; cases h
  | some r =>
    rw [hl] at h
    exact mem_pathUniverse_of_record st root r q (mem_store_of_lookup st p r hl)
      (Or.inr (Or.inl h))

theorem referrersOf_subset_universe (st : Store) (root p q : StorePath)
    (h : q ∈ referrersOf st p) : q ∈ pathUniverse st root := by
  simp only [referrersOf, List.mem_map] at h
  obtain ⟨i, hi, hq⟩ := h
  exact mem_pathUniverse_of_record st root i q (List.mem_of_mem_filter hi) (Or.inl hq.symm)

theorem outputsOf_subset_universe (st : Store) (root p q : StorePath)
    (h : q ∈ outputsOf st p) : q ∈ pathUniverse st root := by
  unfold outputsOf at h
  cases hl : lookupStore st p with
  | none => rw [hl] at h; cases h
  | some r =>
    rw [hl] at h
    exact mem_pathUniverse_of_record st root r q (mem_store_of_lookup st p r hl)
      (Or.inr (Or.inr (Or.inl h)))

theorem deriversOf_subset_universe (st : Store) (root p q : StorePath)
    (h : q ∈ deriversOf st p) : q ∈ pathUniverse st root := by
  unfold deriversOf at h
  cases hl : lookupStore st p with
  | none => rw [hl] at h; cases h
  | some r =>
    rw [hl] at h
    exact mem_pathUniverse_of_record st root r q (mem_store_of_lookup st p r hl)
      (Or.inr (Or.inr (Or.inr h)))

theorem edgeList_subset_universe (st : Store) (fl io idv : Bool) (root p q : StorePath)
    (h : q ∈ edgeList st fl io idv p) : q ∈ pathUniverse st root := by
  simp only [edgeList, List.mem_append] at h
  rcases h with (h | h) | h
  · split at h
    · exact referrersOf_subset_universe st root p q h
    · exact refsOf_subset_universe st root p q h
  · split at h
    · exact outputsOf_subset_universe st root p q h
    · cases h
  · split at h
    · exact deriversOf_subset_universe st root p q h
    · cases h

theorem reachN_subset_universe (st : Store) (fl io idv : Bool) (root : StorePath) (n : Nat) :
    ∀ q ∈ reachN st fl io idv root n, q ∈ pathUniverse st root := by
  induction n with
  | zero =>
    intro q hq
    simp only [reachN, List.mem_singleton] at hq
    subst hq
    simp [pathUniverse]
  | succ n ih =>
    intro q hq
    rcases mem_stepR_elim st fl io idv _ q hq with h | ⟨p, hp, he⟩
    · exact ih q h
    · exact edgeList_subset_universe st fl io idv root p q he

theorem exists_stable (st : Store) (fl io idv : Bool) (root : StorePath) :
    ∃ m, m ≤ closureFuel st root ∧
      ∀ a ∈ reachN st fl io idv root (m + 1), a ∈ reachN st fl io idv root m := by
  by_contra hc
  push_neg at hc
  have grow : ∀ n, n ≤ closureFuel st root + 1 →
      n + 1 ≤ ((reachN st fl io idv root n).toFinset).card := by
    intro n
    induction n with
    | zero =>
      intro _
      have hr : root ∈ (reachN st fl io idv root 0).toFinset := by
        simp [reachN]
      exact Finset.card_pos.mpr ⟨root, hr⟩
    | succ n ih =>
      intro hn
      obtain ⟨a, ha1, ha2⟩ := hc n (by omega)
      have hsub : (reachN st fl io idv root n).toFinset ⊆
          (reachN st fl io idv root (n + 1)).toFinset := by
        intro b hb
        rw [List.mem_toFinset] at hb ⊢
        exact reachN_mono_succ st fl io idv root n b hb
      have hss : (reachN st fl io idv root n).toFinset ⊂
          (reachN st fl io idv root (n + 1)).toFinset := by
        rw [Finset.ssubset_iff_of_subset hsub]
        exact ⟨a, by rwa [List.mem_toFinset], by rwa [List.mem_toFinset]⟩
      have hlt := Finset.card_lt_card hss
      have ihn := ih (by omega)
      omega
  have hbound : ((reachN st fl io idv root (closureFuel st root + 1)).toFinset).card ≤
      closureFuel st root := by
    have hsub : (reachN st fl io idv root (closureFuel st root + 1)).toFinset ⊆
        (pathUniverse st root).toFinset := by
      intro b hb
      rw [List.mem_toFinset] at hb ⊢
      exact reachN_subset_universe st fl io idv root _ b hb
    calc ((reachN st fl io idv root (closureFuel st root + 1)).toFinset).card
        ≤ ((pathUniverse st root).toFinset).card := Finset.card_le_card hsub
      _ = (pathUniverse st root).dedup.length := List.card_toFinset _
      _ = closureFuel st root := rfl
  have := grow (closureFuel st root + 1) le_rfl
  omega

theorem reachN_stable_ge (st : Store) (fl io idv : Bool) (root : StorePath) (m : Nat)
    (hstab : ∀ a ∈ reachN st fl io idv root (m + 1), a ∈ reachN st fl io idv root m) :
    ∀ n, m ≤ n → ∀ a ∈ reachN st fl io idv root n, a ∈ reachN st fl io idv root m := by
  intro n hn
  refine Nat.le_induction ?_ ?_ n hn
  · intro a ha
    exact ha
  · intro k _ ihk a ha
    exact hstab a (stepR_mono st fl io idv _ _ ihk a ha)

theorem reachN_complete (st : Store) (fl io idv : Bool) (root q : StorePath)
    (h : Relation.ReflTransGen (edgeRel st fl io idv) root q) :
    q ∈ computeFSClosure st fl io idv root := by
  obtain ⟨m, hm, hstab⟩ := exists_stable st fl io idv root
  have hcl : ∀ p ∈ reachN st fl io idv root m, ∀ q' ∈ edgeList st fl io idv p,
      q' ∈ reachN st fl io idv root m := by
    intro p hp q' hq'
    exact hstab q' (mem_stepR_edge st fl io idv _ p q' hp hq')
  have hq : q ∈ reachN st fl io idv root m := by
    induction h with
    | refl => exact root_mem_reachN st fl io idv root m
    | tail _ hbc ih => exact hcl _ ih _ hbc
  exact reachN_mono st fl io idv root m (closureFuel st root) hm q hq

theorem mem_computeFSClosure_iff (st : Store) (fl io idv : Bool) (root q : StorePath) :
    q ∈ computeFSClosure st fl io idv root ↔
      Relation.ReflTransGen (edgeRel st fl io idv) root q := by
  constructor
  · intro h
    exact reachN_sound st fl io idv root _ q h
  · intro h
    exact reachN_complete st fl io idv root q h

/-! ## Bridging lemmas -/

theorem edgeRel_of_refEdge (st : Store) (io idv : Bool) (p q : StorePath)
    (h : refEdge st p q) : edgeRel st false io idv p q := by
  simp only [edgeRel, edgeList, List.mem_append, Bool.false_eq_true, if_false]
  exact Or.inl (Or.inl h)

theorem edgeRel_base_iff (st : Store) (p q : StorePath) :
    edgeRel st false false false p q ↔ refEdge st p q := by
  simp [edgeRel, edgeList, refEdge]

theorem compute_fs_closure_ok (st : Store) (root : StorePath) (info : ValidPathInfo)
    (fl io idv : Bool) (h : lookupStore st root = some info) :
    compute_fs_closure st (StorePath.to_string root) fl io idv =
      .ok ((setOfList (computeFSClosure st fl io idv root)).map
        (fun elem => elem.to_string)) := by
  simp only [compute_fs_closure, store_path_from_rust_to_string, h]

theorem mem_map_to_string (l : List StorePath) (s : String) :
    s ∈ l.map (fun elem => elem.to_string) ↔ ∃ q ∈ l, s = StorePath.to_string q := by
  simp only [List.mem_map]
  constructor
  · rintro ⟨q, hq, rfl⟩
    exact ⟨q, hq, rfl⟩
  · rintro ⟨q, hq, rfl⟩
    exact ⟨q, hq, rfl⟩

/-! ## Initialization lemmas -/

theorem construct_done (s : InitState) (h : s.done = true) : construct s = s := by
  simp [construct, h]

theorem constructN_eq_of_pos (n : Nat) (h : 1 ≤ n) :
    constructN n initState = ⟨true, 1⟩ := by
  induction n with
  | zero => omega
  | succ n ih =>
    cases Nat.eq_or_lt_of_le h with
    | inl h1 =>
      have : n = 0 := by omega
      subst this
      rfl
    | inr h2 =>
      have hn : 1 ≤ n := by omega
      show construct (constructN n initState) = _
      rw [ih hn]
      rfl

/-! ## Claims -/

/-- Claim C1 (amended): for every root present in the store,
`compute_fs_closure` with `flip_direction = false` succeeds and its result
contains every path transitively referenced by the root, for every
include_outputs/include_derivers policy; and when both side-edge policies
are off, the result contains only paths reachable from the root through the
reference graph (excluding everything in no reference chain). -/
theorem compute_fs_closure_forward_closure (st : Store) (root : StorePath)
    (info : ValidPathInfo) (io idv : Bool) (h : lookupStore st root = some info) :
    ∃ l, compute_fs_closure st (StorePath.to_string root) false io idv = Except.ok l ∧
      (∀ q : StorePath, Relation.ReflTransGen (refEdge st) root q →
        StorePath.to_string q ∈ l) ∧
      (io = false → idv = false → ∀ s ∈ l,
        ∃ q : StorePath, Relation.ReflTransGen (refEdge st) root q ∧
          s = StorePath.to_string q) := by
  refine ⟨_, compute_fs_closure_ok st root info false io idv h, ?_, ?_⟩
  · intro q hq
    refine List.mem_map.mpr ⟨q, ?_, rfl⟩
    refine (mem_setOfList q _).mpr ?_
    exact (mem_computeFSClosure_iff st false io idv root q).mpr
      (Relation.ReflTransGen.mono (fun a b hab => edgeRel_of_refEdge st io idv a b hab) hq)
  · rintro rfl rfl s hs
    obtain ⟨q, hq, rfl⟩ := List.mem_map.mp hs
    refine ⟨q, ?_, rfl⟩
    have hc := (mem_computeFSClosure_iff st false false false root q).mp
      ((mem_setOfList q _).mp hq)
    exact Relation.ReflTransGen.mono (fun a b hab => (edgeRel_base_iff st a b).mp hab) hc

/-- Claim C1 witness: the spec's scenario — a root whose record references
one other path; the closure call succeeds, contains every referenced path,
and (with both side-edge policies off) nothing unreachable. -/
theorem compute_fs_closure_forward_closure_witness :
    ∃ l, compute_fs_closure sampleStore (StorePath.to_string fooPath) false false false =
        Except.ok l ∧
      (∀ q : StorePath, Relation.ReflTransGen (refEdge sampleStore) fooPath q →
        StorePath.to_string q ∈ l) ∧
      (false = false → false = false → ∀ s ∈ l,
        ∃ q : StorePath, Relation.ReflTransGen (refEdge sampleStore) fooPath q ∧
          s = StorePath.to_string q) :=
  compute_fs_closure_forward_closure sampleStore fooPath fooInfo false false rfl

/-- Claim C1 counterexample: as stated the claim quantifies over
include_outputs; with `include_outputs = true` the result of
`compute_fs_closure(root, false, true, false)` contains the derivation's
declared build output even though that path appears in no reference chain
from the root, so the claim's exclusion clause is false at this input. -/
theorem compute_fs_closure_forward_closure_cex :
    compute_fs_closure drvStore (StorePath.to_string drvPath) false true false =
      Except.ok ["22222222222222222222222222222222-foo.drv",
        "33333333333333333333333333333333-foo"] ∧
    StorePath.to_string outPath ∈
      ["22222222222222222222222222222222-foo.drv",
        "33333333333333333333333333333333-foo"] ∧
    ¬ Relation.ReflTransGen (refEdge drvStore) drvPath outPath := by
  refine ⟨rfl, by decide, ?_⟩
  intro h
  have h1 : outPath ∈ computeFSClosure drvStore false false false drvPath :=
    (mem_computeFSClosure_iff drvStore false false false drvPath outPath).mpr
      (Relation.ReflTransGen.mono
        (fun a b hab => (edgeRel_base_iff drvStore a b).mpr hab) h)
  exact absurd h1 (by decide)

/-- Claim C2: end-of-stream is a distinct terminal message, never an empty
data chunk; on a mid-stream serialization failure the consumer observes
exactly one terminal message, it is the error, it comes last, and every
earlier delivery is a data chunk. -/
theorem nar_stream_terminal (chunks : List (List Nat)) (e : String) :
    ((streamMessages chunks none).getLast? = some rustSinkEof) ∧
    (∀ bytes : List Nat, rustSinkEof ≠ rustSinkWrite bytes) ∧
    ((streamMessages chunks (some e)).getLast? = some (SinkMsg.errMsg e)) ∧
    ((streamMessages chunks (some e)).countP SinkMsg.isTerminal = 1) ∧
    (∀ m ∈ (streamMessages chunks (some e)).dropLast,
      ∃ bytes, m = rustSinkWrite bytes) := by
  refine ⟨?_, ?_, ?_, ?_, ?_⟩
  · simp [streamMessages, List.getLast?_concat]
  · intro bytes
    simp [rustSinkEof, rustSinkWrite]
  · simp [streamMessages, List.getLast?_concat]
  · simp [streamMessages, List.countP_append, List.countP_map, Function.comp,
      rustSinkWrite, SinkMsg.isTerminal, List.countP_cons]
  · intro m hm
    rw [show streamMessages chunks (some e) =
      chunks.map rustSinkWrite ++ [SinkMsg.errMsg e] from rfl, List.dropLast_concat] at hm
    obtain ⟨bytes, _, rfl⟩ := List.mem_map.mp hm
    exact ⟨bytes, rfl⟩

/-- Claim C3: over any serialized sequence of `CNixStore` constructions (the
global mutex serializes them), `nix::initNix` runs exactly once — the first
construction runs it and sets the flag, every later one skips it. -/
theorem init_nix_runs_once (n : Nat) (h : 1 ≤ n) :
    (constructN n initState).initCount = 1 ∧
    (constructN n initState).done = true ∧
    construct initState = ⟨true, 1⟩ ∧
    (∀ m, 1 ≤ m → constructN (m + 1) initState = constructN m initState) := by
  have h1 := constructN_eq_of_pos n h
  refine ⟨by rw [h1], by rw [h1], rfl, ?_⟩
  intro m hm
  have h2 := constructN_eq_of_pos m hm
  show construct (constructN m initState) = constructN m initState
  rw [h2]
  rfl

/-- Claim C3 witness: after three constructions the initialization routine
has run exactly once. -/
theorem init_nix_runs_once_witness :
    (constructN 3 initState).initCount = 1 ∧
    (constructN 3 initState).done = true ∧
    construct initState = ⟨true, 1⟩ ∧
    (∀ m, 1 ≤ m → constructN (m + 1) initState = constructN m initState) :=
  init_nix_runs_once 3 (by decide)

/-- Claim C4: the path-identifier codec round-trips — decoding the encoding
of any valid path identifier gives it back, and hence decoding is stable
under re-encoding for every byte sequence that decodes successfully. -/
theorem codec_round_trip :
    (∀ p : StorePath, store_path_from_rust (StorePath.to_string p) = some p) ∧
    (∀ (b : String) (p : StorePath), store_path_from_rust b = some p →
      store_path_from_rust (StorePath.to_string p) = store_path_from_rust b) := by
  refine ⟨store_path_from_rust_to_string, ?_⟩
  intro b p h
  rw [store_path_from_rust_to_string, h]

/-- Claim C4 witness: the round-trip stability law applied to a concrete
valid byte sequence. -/
theorem codec_round_trip_witness :
    store_path_from_rust (StorePath.to_string fooPath) =
      store_path_from_rust "00000000000000000000000000000000-foo" :=
  codec_round_trip.2 "00000000000000000000000000000000-foo" fooPath rfl

/-- Claim C5: `compute_fs_closure` is deterministic and idempotent — two
calls with identical root and policy flags against the same store produce
identical results, and in particular set-equal member sets. -/
theorem compute_fs_closure_deterministic (st : Store) (b : String) (fl io idv : Bool) :
    compute_fs_closure st b fl io idv = compute_fs_closure st b fl io idv ∧
    okSet (compute_fs_closure st b fl io idv) = okSet (compute_fs_closure st b fl io idv) :=
  ⟨rfl, rfl⟩

/-- Claim C6: for a syntactically valid path identifier, `query_path_info`
fails with `pathNotFound` when the path is absent, and every successful
result wraps a record actually present in the store (never a default/empty
one). -/
theorem query_path_info_not_found (st : Store) (b : String) (p : StorePath)
    (hd : store_path_from_rust b = some p) :
    (lookupStore st p = none → query_path_info st b = Except.error NixError.pathNotFound) ∧
    (∀ c : CPathInfo, query_path_info st b = Except.ok c →
      lookupStore st c.pi.path = some c.pi) := by
  constructor
  · intro hl
    simp only [query_path_info, hd, hl]
  · intro c hc
    simp only [query_path_info, hd] at hc
    cases hl : lookupStore st p with
    | none =>
      simp only [hl] at hc
      exact Except.noConfusion hc
    | some r =>
      simp only [hl, Except.ok.injEq] at hc
      have hp : r.path = p := by
        have := List.find?_some hl
        simpa using this
      rw [← hc]
      simpa [hp] using hl

/-- Claim C6 witness: querying a valid but absent path fails with
`pathNotFound`, and the successful-query clause holds at the same input. -/
theorem query_path_info_not_found_witness :
    (lookupStore sampleStore missingPath = none →
      query_path_info sampleStore (StorePath.to_string missingPath) =
        Except.error NixError.pathNotFound) ∧
    (∀ c : CPathInfo,
      query_path_info sampleStore (StorePath.to_string missingPath) = Except.ok c →
      lookupStore sampleStore c.pi.path = some c.pi) :=
  query_path_info_not_found sampleStore (StorePath.to_string missingPath) missingPath rfl

/-- Claim C7: a malformed byte sequence is rejected with
`invalidPathFormat` by both entry points, for every store — the result does
not depend on the store, so no store call is made. -/
theorem malformed_rejected_before_store (b : String) (fl io idv : Bool)
    (h : store_path_from_rust b = none) (st : Store) :
    query_path_info st b = Except.error NixError.invalidPathFormat ∧
    compute_fs_closure st b fl io idv = Except.error NixError.invalidPathFormat := by
  constructor
  · simp only [query_path_info, h]
  · simp only [compute_fs_closure, h]

/-- Claim C7 witness: a concrete malformed base name (wrong hash-segment
length) is rejected by both entry points. -/
theorem malformed_rejected_before_store_witness :
    query_path_info sampleStore "nota-path" = Except.error NixError.invalidPathFormat ∧
    compute_fs_closure sampleStore "nota-path" false false false =
      Except.error NixError.invalidPathFormat :=
  malformed_rejected_before_store "nota-path" false false false rfl sampleStore

/-- Claim C8: for a successfully queried record, `references()` renders
every directly referenced path in canonical string form, preserving the
record's order position by position (no re-sorting), every returned string
comes from a reference, and `sigs()` is a copy of the record's signature
sequence — both depend only on the captured record, so later store
mutations cannot affect them. -/
theorem references_order_preserved (st : Store) (b : String) (c : CPathInfo)
    (h : query_path_info st b = Except.ok c) :
    (∀ q ∈ c.pi.references, StorePath.to_string q ∈ c.references) ∧
    (c.references.length = c.pi.references.length) ∧
    (∀ (i : Nat) (h1 : i < c.references.length) (h2 : i < c.pi.references.length),
      c.references.get ⟨i, h1⟩ = StorePath.to_string (c.pi.references.get ⟨i, h2⟩)) ∧
    (∀ s ∈ c.references, ∃ q ∈ c.pi.references, s = StorePath.to_string q) ∧
    (c.sigs = c.pi.sigs) := by
  refine ⟨?_, ?_, ?_, ?_, ?_⟩
  · intro q hq
    exact List.mem_map.mpr ⟨q, hq, rfl⟩
  · simp [CPathInfo.references]
  · intro i h1 h2
    simp [CPathInfo.references]
  · intro s hs
    obtain ⟨q, hq, rfl⟩ := List.mem_map.mp hs
    exact ⟨q, hq, rfl⟩
  · simp [CPathInfo.sigs]

/-- Claim C8 witness: the reference accessors of the concretely queried
`fooPath` record. -/
theorem references_order_preserved_witness :
    (∀ q ∈ (CPathInfo.mk fooInfo).pi.references,
      StorePath.to_string q ∈ (CPathInfo.mk fooInfo).references) ∧
    ((CPathInfo.mk fooInfo).references.length =
      (CPathInfo.mk fooInfo).pi.references.length) ∧
    (∀ (i : Nat) (h1 : i < (CPathInfo.mk fooInfo).references.length)
      (h2 : i < (CPathInfo.mk fooInfo).pi.references.length),
      (CPathInfo.mk fooInfo).references.get ⟨i, h1⟩ =
        StorePath.to_string ((CPathInfo.mk fooInfo).pi.references.get ⟨i, h2⟩)) ∧
    (∀ s ∈ (CPathInfo.mk fooInfo).references,
      ∃ q ∈ (CPathInfo.mk fooInfo).pi.references, s = StorePath.to_string q) ∧
    ((CPathInfo.mk fooInfo).sigs = (CPathInfo.mk fooInfo).pi.sigs) :=
  references_order_preserved sampleStore (StorePath.to_string fooPath)
    (CPathInfo.mk fooInfo) rfl

/-- Claim C9: every successful `compute_fs_closure` result has no duplicate
path strings and is in the `std::set`'s sorted path order. -/
theorem compute_fs_closure_nodup_sorted (st : Store) (b : String) (fl io idv : Bool)
    (l : List String) (h : compute_fs_closure st b fl io idv = Except.ok l) :
    l.Nodup ∧ l.Sorted (fun a b => a < b) := by
  simp only [compute_fs_closure] at h
  cases hd : store_path_from_rust b with
  | none =>
    simp only [hd] at h
    exact Except.noConfusion h
  | some root =>
    simp only [hd] at h
    cases hl : lookupStore st root with
    | none =>
      simp only [hl] at h
      exact Except.noConfusion h
    | some r =>
      simp only [hl, Except.ok.injEq] at h
      rw [← h]
      constructor
      · have hp := pairwise_setOfList (computeFSClosure st fl io idv root)
        have hnd : (setOfList (computeFSClosure st fl io idv root)).Nodup :=
          hp.imp (fun hab => fun e => absurd (e ▸ hab) (lt_irrefl _))
        exact hnd.map (fun a b hab => Subtype.ext hab)
      · show List.Pairwise _ _
        rw [List.pairwise_map]
        exact pairwise_setOfList (computeFSClosure st fl io idv root)

/-- Claim C9 witness: the concrete scenario closure is duplicate-free and
sorted. -/
theorem compute_fs_closure_nodup_sorted_witness :
    (["00000000000000000000000000000000-foo",
      "11111111111111111111111111111111-bar"] : List String).Nodup ∧
    (["00000000000000000000000000000000-foo",
      "11111111111111111111111111111111-bar"] : List String).Sorted (fun a b => a < b) :=
  compute_fs_closure_nodup_sorted sampleStore "00000000000000000000000000000000-foo"
    false false false
    ["00000000000000000000000000000000-foo", "11111111111111111111111111111111-bar"] rfl

/-- Claim C10: both entry points parse the incoming bytes with the same
decoder, so one rejects a byte sequence as malformed exactly when the other
does. -/
theorem decoder_agreement (st : Store) (b : String) (fl io idv : Bool) :
    (query_path_info st b = Except.error NixError.invalidPathFormat ↔
      compute_fs_closure st b fl io idv = Except.error NixError.invalidPathFormat) := by
  simp only [query_path_info, compute_fs_closure]
  cases hd : store_path_from_rust b with
  | none => simp
  | some p =>
    cases hl : lookupStore st p with
    | none => simp [hl]
    | some r => simp [hl]

end Nixcp

